import Mathlib

/-!
Verification development for the nyorai2 indexer (src/indexer.ts).

The source has three components:
* the File Selector `readFilesRecursively` (recursive directory walk with a
  directory deny-set and an extension allow-set, fail-fast on listing errors);
* the Index Provisioner `initializePineconeIndex` (list / create / poll loop);
* the Ingestion Driver `indexFiles` (per-file read, embed, upsert with
  absorbed per-file errors and a final summary).

External collaborators (the filesystem, the OpenAI embeddings endpoint and the
Pinecone vector store) are modelled as explicit oracles passed in as data, so
every function here is a pure, executable Lean function mirroring the
TypeScript control flow.
-/

set_option autoImplicit false

namespace Nyorai

/-- The module-level deny-set of directory names (`ignoredDirs` in the source). -/
def ignoredDirs : List String :=
  ["node_modules", ".git", ".vscode", "dist", "build", "coverage", "logs", "tmp", "temp"]

/-- The module-level allow-set of file extensions (`allowedExtensions` in the source). -/
def allowedExtensions : List String :=
  [".ts", ".tsx", ".js", ".jsx", ".md", ".tf", ".tfvars", ".hcl", ".pkr.hcl",
   ".Dockerfile", ".dockerignore", ".yml", ".yaml"]

/-- Index of the last occurrence of a dot in a list of characters, if any. -/
def lastDotIdx : List Char → Option Nat
  | [] => none
  | c :: rest =>
      match lastDotIdx rest with
      | some i => some (i + 1)
      | none => if c = '.' then some 0 else none

/-- Model of Node.js `path.extname` restricted to bare entry names (no path
separators): the substring from the last dot to the end, except that a name
with no dot, or whose only dot is its first character (a dotfile such as
`.dockerignore`), has extension `""`. -/
def extname (name : String) : String :=
  match lastDotIdx name.data with
  | none => ""
  | some 0 => ""
  | some i => String.mk (name.data.drop i)

/-- A directory tree as seen by the traversal.  `fileE name` is a plain file;
`dirE name entries` is a directory whose `readdir` succeeds with `entries`;
`dirErrE name err` is a directory whose `readdir` fails with `err` (the
filesystem oracle is baked into the tree).  Entry names carry no separators. -/
inductive FSEntry where
  | fileE (name : String)
  | dirE (name : String) (entries : List FSEntry)
  | dirErrE (name : String) (err : String)

/-- Model of `readFilesRecursively(dir)` from the source, applied to the entry
list returned by `fs.readdir(dir)`.  Per entry: a directory whose name is in
`ignoredDirs` is pruned (yields `[]`, never descended, so its listing error, if
any, is never raised); a non-directory is kept only when `path.extname` of its
name is in `allowedExtensions`; other directories are recursed into at
`path.resolve(dir, name)` (modelled as `dir ++ "/" ++ name`).  Any listing
error rejects the whole `Promise.all`, and the `catch` rethrows it, so an
error anywhere aborts the traversal. -/
def readFilesRecursively (dir : String) : List FSEntry → Except String (List String)
  | [] => .ok []
  | .fileE name :: rest =>
      match readFilesRecursively dir rest with
      | .error err => .error err
      | .ok rs =>
          .ok (if extname name ∈ allowedExtensions then (dir ++ "/" ++ name) :: rs else rs)
  | .dirE name entries :: rest =>
      if name ∈ ignoredDirs then readFilesRecursively dir rest
      else
        match readFilesRecursively (dir ++ "/" ++ name) entries with
        | .error err => .error err
        | .ok fs =>
            match readFilesRecursively dir rest with
            | .error err => .error err
            | .ok rs => .ok (fs ++ rs)
  | .dirErrE name err :: rest =>
      if name ∈ ignoredDirs then readFilesRecursively dir rest
      else .error err

/-- Removes every denied directory (together with its whole subtree) from a
tree, at every depth.  The traversal never looks inside a denied directory, so
it cannot distinguish a tree from its pruned form. -/
def pruneDenied : List FSEntry → List FSEntry
  | [] => []
  | .fileE name :: rest => .fileE name :: pruneDenied rest
  | .dirE name entries :: rest =>
      if name ∈ ignoredDirs then pruneDenied rest
      else .dirE name (pruneDenied entries) :: pruneDenied rest
  | .dirErrE name err :: rest =>
      if name ∈ ignoredDirs then pruneDenied rest
      else .dirErrE name err :: pruneDenied rest

/-- Whether the traversal, started on this entry list, reaches a directory
whose listing fails: a non-denied `dirErrE` here, or a visited error inside a
non-denied subdirectory. -/
def hasVisitedError : List FSEntry → Bool
  | [] => false
  | .fileE _ :: rest => hasVisitedError rest
  | .dirE name entries :: rest =>
      (if name ∈ ignoredDirs then false else hasVisitedError entries) || hasVisitedError rest
  | .dirErrE name _ :: rest =>
      (decide (name ∉ ignoredDirs)) || hasVisitedError rest

/-- Whether an `Except` result is a success. -/
def exceptOk {α : Type} : Except String α → Bool
  | .ok _ => true
  | .error _ => false

/-- Pruning the denied directories out of a tree does not change the
traversal result: the walk never looks inside them. -/
theorem readFiles_prune_eq :
    ∀ (dir : String) (es : List FSEntry),
      readFilesRecursively dir (pruneDenied es) = readFilesRecursively dir es
  | _, [] => by simp [pruneDenied]
  | dir, .fileE n :: rest => by
      simp [pruneDenied, readFilesRecursively, readFiles_prune_eq dir rest]
  | dir, .dirE n entries :: rest => by
      by_cases h : n ∈ ignoredDirs
      · simp [pruneDenied, readFilesRecursively, h, readFiles_prune_eq dir rest]
      · simp [pruneDenied, readFilesRecursively, h, readFiles_prune_eq dir rest,
          readFiles_prune_eq (dir ++ "/" ++ n) entries]
  | dir, .dirErrE n err :: rest => by
      by_cases h : n ∈ ignoredDirs
      · simp [pruneDenied, readFilesRecursively, h, readFiles_prune_eq dir rest]
      · simp [pruneDenied, readFilesRecursively, h, readFiles_prune_eq dir rest]
termination_by _ es => sizeOf es

/-- A denied directory entry (whatever its subtree, even a failing listing)
contributes nothing to the traversal. -/
theorem readFiles_denied_cons (dir d : String) (entries rest : List FSEntry)
    (h : d ∈ ignoredDirs) :
    readFilesRecursively dir (.dirE d entries :: rest) = readFilesRecursively dir rest := by
  simp [readFilesRecursively, h]

/-- The traversal succeeds exactly when no visited directory listing fails;
when one fails the whole result is an error, never a partial list. -/
theorem readFiles_ok_iff_no_visited_error :
    ∀ (dir : String) (es : List FSEntry),
      exceptOk (readFilesRecursively dir es) = !hasVisitedError es
  | _, [] => by simp [readFilesRecursively, hasVisitedError, exceptOk]
  | dir, .fileE n :: rest => by
      have ih := readFiles_ok_iff_no_visited_error dir rest
      cases h : readFilesRecursively dir rest <;>
        rw [h] at ih <;>
        simp_all [readFilesRecursively, hasVisitedError, exceptOk]
  | dir, .dirE n entries :: rest => by
      have ih1 := readFiles_ok_iff_no_visited_error (dir ++ "/" ++ n) entries
      have ih2 := readFiles_ok_iff_no_visited_error dir rest
      by_cases h : n ∈ ignoredDirs
      · cases h2 : readFilesRecursively dir rest <;>
          rw [h2] at ih2 <;>
          simp_all [readFilesRecursively, hasVisitedError, exceptOk]
      · cases h1 : readFilesRecursively (dir ++ "/" ++ n) entries <;>
          cases h2 : readFilesRecursively dir rest <;>
          rw [h1] at ih1 <;> rw [h2] at ih2 <;>
          simp_all [readFilesRecursively, hasVisitedError, exceptOk]
  | dir, .dirErrE n err :: rest => by
      have ih := readFiles_ok_iff_no_visited_error dir rest
      by_cases h : n ∈ ignoredDirs
      · cases h2 : readFilesRecursively dir rest <;>
          rw [h2] at ih <;>
          simp_all [readFilesRecursively, hasVisitedError, exceptOk]
      · simp [readFilesRecursively, hasVisitedError, h, exceptOk]
termination_by _ es => sizeOf es

/-- A single file entry is selected exactly when its extension is allowed. -/
theorem readFiles_single_file (dir name : String) :
    readFilesRecursively dir [.fileE name]
      = .ok (if extname name ∈ allowedExtensions then [dir ++ "/" ++ name] else []) := by
  simp [readFilesRecursively]

/-- C1: a file under a directory whose name is in the deny-set, at any depth,
is never in the File Selector output: the traversal result is invariant under
deleting every denied subtree, a denied directory entry contributes nothing,
and on the root {a.ts, b.png, node_modules/c.ts} exactly a.ts is selected. -/
theorem selector_denied_dirs_never_selected :
    (∀ (dir : String) (es : List FSEntry),
        readFilesRecursively dir (pruneDenied es) = readFilesRecursively dir es)
    ∧ (∀ (dir d : String) (entries rest : List FSEntry), d ∈ ignoredDirs →
        readFilesRecursively dir (.dirE d entries :: rest) = readFilesRecursively dir rest)
    ∧ readFilesRecursively "root"
        [.fileE "a.ts", .fileE "b.png", .dirE "node_modules" [.fileE "c.ts"]]
      = .ok ["root/a.ts"] := by
  refine ⟨readFiles_prune_eq, ?_, ?_⟩
  · intro dir d entries rest h
    exact readFiles_denied_cons dir d entries rest h
  · simp [readFilesRecursively, ignoredDirs, allowedExtensions, extname, lastDotIdx]

/-- Witness for the hypothesis-bearing conjunct of the C1 theorem, at the
concrete denied directory node_modules. -/
theorem selector_denied_dirs_never_selected_witness :
    readFilesRecursively "r" [.dirE "node_modules" [.fileE "x.ts"]]
      = readFilesRecursively "r" [] :=
  selector_denied_dirs_never_selected.2.1 "r" "node_modules" [.fileE "x.ts"] [] (by decide)

/-- C4: an I/O error while listing any directory reached by the traversal
aborts the whole traversal with an error (no partial file list): the result is
a success exactly when no visited listing fails, and a concrete failing
subdirectory makes the whole result that error. -/
theorem selector_listing_error_aborts :
    (∀ (dir : String) (es : List FSEntry),
        exceptOk (readFilesRecursively dir es) = !hasVisitedError es)
    ∧ readFilesRecursively "root" [.fileE "a.ts", .dirErrE "sub" "EACCES"]
      = .error "EACCES" := by
  refine ⟨readFiles_ok_iff_no_visited_error, ?_⟩
  simp [readFilesRecursively, ignoredDirs]

/-- C8 (code evaluated at the failing input): a file entry is selected exactly
when path.extname of its name is in the allow-set; but path.extname of the
dotfile name .dockerignore is the empty string, so a file named .dockerignore
is never selected even though the allow-set itself lists ".dockerignore". -/
theorem selector_dockerignore_never_selected :
    (∀ (dir name : String),
        readFilesRecursively dir [.fileE name]
          = .ok (if extname name ∈ allowedExtensions then [dir ++ "/" ++ name] else []))
    ∧ ".dockerignore" ∈ allowedExtensions
    ∧ extname ".dockerignore" = ""
    ∧ readFilesRecursively "root" [.fileE ".dockerignore"] = .ok [] := by
  refine ⟨readFiles_single_file, by decide, by decide, ?_⟩
  simp [readFilesRecursively, allowedExtensions, extname, lastDotIdx]

/-- A create-index request as issued by the provisioner: the name plus the
dimension and the serverless cloud/region of the spec object. -/
structure CreateRequest where
  name : String
  dimension : Nat
  cloud : String
  region : String
deriving Repr, DecidableEq

/-- Oracle for the Pinecone client as the provisioner sees it.
`listIndexes` is the one listing call: it may throw, and its `indexes` field
may be absent (`none`, mirroring `existingIndexes` being undefined) or a list
of index names (`existingIndexes.map(index => index.name)`).
`createIndex` is the outcome of a create call.  `describeIndexReady` gives,
for the k-th describe call (k = 0, 1, ...), either an error or the value of
`status.ready`; indexing by call number models remote state changing over
time between polls. -/
structure PineconeEnv where
  listIndexes : Except String (Option (List String))
  createIndex : CreateRequest → Except String Unit
  describeIndexReady : Nat → Except String Bool

/-- Trace of the `while (!isReady)` polling loop: how many describe calls
were made, the sleeps between them (each `setTimeout(..., 2000)`), and the
outcome — `some (.ok ())` when a poll reported `ready === true`,
`some (.error e)` when a describe call threw (the catch rethrows), and `none`
when the loop is still running after `fuel` describe calls (the code has no
timeout, so `none` at every fuel models an infinite wait). -/
structure PollTrace where
  describeCalls : Nat
  sleepsMs : List Nat
  outcome : Option (Except String Unit)
deriving Repr

/-- The readiness wait of the provisioner: call describe number k; on error
stop with that error; on `ready === true` stop ready; otherwise sleep 2000 ms
and poll again.  `fuel` bounds only how far the model unrolls the loop. -/
def pollUntilReady (describe : Nat → Except String Bool) : Nat → Nat → PollTrace
  | 0, _ => ⟨0, [], none⟩
  | fuel + 1, k =>
      match describe k with
      | .error e => ⟨1, [], some (.error e)⟩
      | .ok true => ⟨1, [], some (.ok ())⟩
      | .ok false =>
          let r := pollUntilReady describe fuel (k + 1)
          ⟨r.describeCalls + 1, 2000 :: r.sleepsMs, r.outcome⟩

/-- Trace of one provisioner run: the create requests issued and the final
outcome (`none` when the model unrolled the readiness loop `fuel` times
without it finishing). -/
structure InitTrace where
  createRequests : List CreateRequest
  poll : PollTrace
  outcome : Option (Except String Unit)
deriving Repr

/-- Model of `initializePineconeIndex(indexName, {indexer})` from the source:
list the existing indexes (an error propagates); if the `indexes` field is
absent or does not contain `indexName` (`!indexNames ||
!indexNames.includes(indexName)`), issue one create request with dimension
1536 and serverless spec cloud aws, region us-east-1 (a create error
propagates); then poll `describeIndex` every 2000 ms until `status.ready ===
true` or a describe error. -/
def initPineconeIndex (env : PineconeEnv) (indexName : String) (fuel : Nat) : InitTrace :=
  match env.listIndexes with
  | .error e => ⟨[], ⟨0, [], none⟩, some (.error e)⟩
  | .ok indexNames =>
      let needCreate :=
        match indexNames with
        | none => true
        | some names => decide (indexName ∉ names)
      if needCreate then
        let req : CreateRequest := ⟨indexName, 1536, "aws", "us-east-1"⟩
        match env.createIndex req with
        | .error e => ⟨[req], ⟨0, [], none⟩, some (.error e)⟩
        | .ok _ =>
            let p := pollUntilReady env.describeIndexReady fuel 0
            ⟨[req], p, p.outcome⟩
      else
        let p := pollUntilReady env.describeIndexReady fuel 0
        ⟨[], p, p.outcome⟩

/-- The polling loop is still running after `fuel` describe calls exactly
when every one of those calls reported not ready. -/
theorem pollUntilReady_none_iff (d : Nat → Except String Bool) :
    ∀ (fuel k : Nat),
      (pollUntilReady d fuel k).outcome = none ↔ ∀ j, j < fuel → d (k + j) = .ok false := by
  intro fuel
  induction fuel with
  | zero => intro k; simp [pollUntilReady]
  | succ n ih =>
      intro k
      cases h : d k with
      | error e =>
          simp only [pollUntilReady, h]
          constructor
          · intro hc; exact absurd hc (by simp)
          · intro hall
            have h0 := hall 0 (by omega)
            rw [Nat.add_zero] at h0
            rw [h0] at h
            exact absurd h (by simp)
      | ok b =>
          cases b with
          | true =>
              simp only [pollUntilReady, h]
              constructor
              · intro hc; exact absurd hc (by simp)
              · intro hall
                have h0 := hall 0 (by omega)
                rw [Nat.add_zero] at h0
                rw [h0] at h
                exact absurd h (by simp)
          | false =>
              simp only [pollUntilReady, h]
              rw [ih (k + 1)]
              constructor
              · intro hall j hj
                cases j with
                | zero => rw [Nat.add_zero]; exact h
                | succ i =>
                    have := hall i (by omega)
                    rw [show k + 1 + i = k + (i + 1) by omega] at this
                    exact this
              · intro hall j hj
                have := hall (j + 1) (by omega)
                rw [show k + (j + 1) = k + 1 + j by omega] at this
                exact this

/-- Every sleep in a poll trace is exactly 2000 ms. -/
theorem pollUntilReady_sleeps (d : Nat → Except String Bool) :
    ∀ (fuel k : Nat),
      (pollUntilReady d fuel k).sleepsMs
        = List.replicate (pollUntilReady d fuel k).sleepsMs.length 2000 := by
  intro fuel
  induction fuel with
  | zero => intro k; simp [pollUntilReady]
  | succ n ih =>
      intro k
      cases h : d k with
      | error e => simp [pollUntilReady, h]
      | ok b =>
          cases b with
          | true => simp [pollUntilReady, h]
          | false =>
              simp only [pollUntilReady, h]
              rw [List.length_cons, List.replicate_succ]
              rw [← ih (k + 1)]

/-- C6: the readiness wait polls describeIndex with a fixed 2000 ms sleep
between polls and stops exactly when a poll reports ready or throws: the
unrolled loop is unfinished after `fuel` polls iff all of them returned not
ready, every recorded sleep is 2000 ms, and when describe always reports not
ready and never throws, the loop is unfinished at every fuel (it runs
forever, there being no timeout). -/
theorem provisioner_wait_no_timeout (d : Nat → Except String Bool) (fuel k : Nat) :
    ((pollUntilReady d fuel k).outcome = none ↔ ∀ j, j < fuel → d (k + j) = .ok false)
    ∧ (pollUntilReady d fuel k).sleepsMs
        = List.replicate (pollUntilReady d fuel k).sleepsMs.length 2000
    ∧ ((∀ j, d j = .ok false) → (pollUntilReady d fuel k).outcome = none) := by
  refine ⟨pollUntilReady_none_iff d fuel k, pollUntilReady_sleeps d fuel k, ?_⟩
  intro hall
  rw [pollUntilReady_none_iff d fuel k]
  intro j _
  exact hall (k + j)

/-- Witness for C6 at a describe oracle that is never ready: after 5 polls
the loop is still running. -/
theorem provisioner_wait_no_timeout_witness :
    (pollUntilReady (fun _ => .ok false) 5 0).outcome = none :=
  (provisioner_wait_no_timeout (fun _ => .ok false) 5 0).2.2 (fun _ => rfl)

/-- C5: when the listing succeeds and contains the index name no create
request is issued; when the listing succeeds and does not contain it, exactly
one create request is issued, with dimension 1536 and the fixed serverless
placement aws/us-east-1. -/
theorem provisioner_create_iff_absent (env : PineconeEnv) (indexName : String)
    (fuel : Nat) (names : List String) (h : env.listIndexes = .ok (some names)) :
    (indexName ∈ names → (initPineconeIndex env indexName fuel).createRequests = [])
    ∧ (indexName ∉ names →
        (initPineconeIndex env indexName fuel).createRequests
          = [⟨indexName, 1536, "aws", "us-east-1"⟩]) := by
  constructor
  · intro hm
    simp [initPineconeIndex, h, hm]
  · intro hm
    cases hc : env.createIndex ⟨indexName, 1536, "aws", "us-east-1"⟩ <;>
      simp [initPineconeIndex, h, hm, hc]

/-- A concrete Pinecone oracle whose listing already contains idx. -/
def envPresent : PineconeEnv :=
  ⟨.ok (some ["idx"]), fun _ => .ok (), fun _ => .ok true⟩

/-- Witness for C5: with idx already listed, no create request is issued. -/
theorem provisioner_create_iff_absent_witness :
    (initPineconeIndex envPresent "idx" 1).createRequests = [] :=
  (provisioner_create_iff_absent envPresent "idx" 1 ["idx"] rfl).1 (by decide)

/-- C10: when the listing succeeds but carries no indexes field at all
(undefined, modelled as none), the provisioner treats the index as absent:
it issues the one create request and, if creation succeeds, proceeds to the
readiness wait instead of failing. -/
theorem provisioner_missing_listing_creates (env : PineconeEnv) (indexName : String)
    (fuel : Nat) (h : env.listIndexes = .ok none) :
    (initPineconeIndex env indexName fuel).createRequests
      = [⟨indexName, 1536, "aws", "us-east-1"⟩]
    ∧ (env.createIndex ⟨indexName, 1536, "aws", "us-east-1"⟩ = .ok () →
        (initPineconeIndex env indexName fuel).outcome
          = (pollUntilReady env.describeIndexReady fuel 0).outcome) := by
  constructor
  · cases hc : env.createIndex ⟨indexName, 1536, "aws", "us-east-1"⟩ <;>
      simp [initPineconeIndex, h, hc]
  · intro hc
    simp [initPineconeIndex, h, hc]

/-- A concrete Pinecone oracle whose listing response has no indexes field. -/
def envNoField : PineconeEnv :=
  ⟨.ok none, fun _ => .ok (), fun _ => .ok true⟩

/-- Witness for C10: with an absent indexes field, the create request is
issued. -/
theorem provisioner_missing_listing_creates_witness :
    (initPineconeIndex envNoField "idx" 1).createRequests
      = [⟨"idx", 1536, "aws", "us-east-1"⟩] :=
  (provisioner_missing_listing_creates envNoField "idx" 1 rfl).1

/-- An embeddings.create request: the model name and the input text. -/
structure EmbedRequest where
  model : String
  input : String
deriving Repr, DecidableEq

/-- The metadata object stored with an index entry: the file path and the
full embedded text. -/
structure EntryMetadata where
  path : String
  text : String
deriving Repr, DecidableEq

/-- The record upserted into the vector store, over an abstract embedding
type `E` (the embedding vector is opaque to the driver). -/
structure IndexEntry (E : Type) where
  id : String
  values : E
  metadata : EntryMetadata
deriving Repr, DecidableEq

/-- Oracles for the collaborators of `indexFiles`: `fs.readFile(file,
"utf8")`, `openai.embeddings.create` (its whole happy path through
`embedding.data[0].embedding`, any failure collapsed into the error case) and
the outcome of `index.upsert(batch)`.  Functions, hence deterministic. -/
structure Collab (E : Type) where
  readFile : String → Except String String
  embed : EmbedRequest → Except String E
  upsert : List (IndexEntry E) → Except String Unit

/-- Replace-on-conflict semantics of a single upsert on the remote index,
per the collaborator contract: an entry with the same id is overwritten in
place, a new id is appended. -/
def storeUpsert {E : Type} (s : List (IndexEntry E)) (e : IndexEntry E) :
    List (IndexEntry E) :=
  if s.any (fun x => x.id == e.id) then
    s.map (fun x => if x.id == e.id then e else x)
  else s ++ [e]

/-- Upserting a list of entries in order. -/
def upsertList {E : Type} (s : List (IndexEntry E)) (es : List (IndexEntry E)) :
    List (IndexEntry E) :=
  es.foldl storeUpsert s

/-- The model name the driver passes to embeddings.create. -/
def embeddingModel : String := "text-embedding-3-small"

/-- State threaded through one `indexFiles` run: the success counter plus
the observable interaction record — every embeddings.create request, every
upsert request (each a batch, the code always sends a singleton batch), and
the remote index contents. -/
structure RunState (E : Type) where
  successfulCount : Nat
  embedRequests : List EmbedRequest
  upsertRequests : List (List (IndexEntry E))
  store : List (IndexEntry E)
deriving Repr

/-- One iteration of the `for (const file of files)` loop of `indexFiles`:
read the file (a failure is caught: state unchanged apart from nothing, move
on); build `contentWithFilePath`; in dry-run mode just count a success;
otherwise request an embedding (a failure is caught), upsert the single
entry (a failure is caught), and on full success update the store and count
the success. -/
def processFile {E : Type} (c : Collab E) (dryrunMode : Bool) (st : RunState E)
    (file : String) : RunState E :=
  match c.readFile file with
  | .error _ => st
  | .ok content =>
      let contentWithFilePath := "File path: " ++ file ++ "\n\n" ++ content
      if dryrunMode then
        { st with successfulCount := st.successfulCount + 1 }
      else
        let req : EmbedRequest := ⟨embeddingModel, contentWithFilePath⟩
        let st1 := { st with embedRequests := st.embedRequests ++ [req] }
        match c.embed req with
        | .error _ => st1
        | .ok emb =>
            let entry : IndexEntry E := ⟨file, emb, ⟨file, contentWithFilePath⟩⟩
            let st2 := { st1 with upsertRequests := st1.upsertRequests ++ [[entry]] }
            match c.upsert [entry] with
            | .error _ => st2
            | .ok _ =>
                { st2 with store := storeUpsert st2.store entry,
                           successfulCount := st2.successfulCount + 1 }

/-- The summary the run always ends with: successful count out of total,
mode and target index name. -/
structure IngestionSummary where
  successfulCount : Nat
  total : Nat
  dryrunMode : Bool
  indexName : String
deriving Repr, DecidableEq

/-- Model of `indexFiles(files, indexName, {indexer, embedder, dryrunMode})`:
process the files sequentially from a zeroed state over the given initial
remote store, then emit the summary.  It is a total function: no per-file
failure escapes the loop. -/
def indexFiles {E : Type} (c : Collab E) (files : List String) (indexName : String)
    (dryrunMode : Bool) (store0 : List (IndexEntry E)) :
    RunState E × IngestionSummary :=
  let st := files.foldl (processFile c dryrunMode) ⟨0, [], [], store0⟩
  (st, ⟨st.successfulCount, files.length, dryrunMode, indexName⟩)

/-- Whether one file's processing succeeds (read ok, then in real mode embed
and upsert ok): the per-file outcome, a function of the collaborators and
the file alone. -/
def fileSucceeds {E : Type} (c : Collab E) (dryrunMode : Bool) (file : String) : Bool :=
  match c.readFile file with
  | .error _ => false
  | .ok content =>
      let contentWithFilePath := "File path: " ++ file ++ "\n\n" ++ content
      if dryrunMode then true
      else
        match c.embed ⟨embeddingModel, contentWithFilePath⟩ with
        | .error _ => false
        | .ok emb =>
            match c.upsert [⟨file, emb, ⟨file, contentWithFilePath⟩⟩] with
            | .error _ => false
            | .ok _ => true

/-- The entry whose upsert is requested for a file in real mode (read and
embed both succeed), if any. -/
def requestedEntry {E : Type} (c : Collab E) (file : String) : Option (IndexEntry E) :=
  match c.readFile file with
  | .error _ => none
  | .ok content =>
      let contentWithFilePath := "File path: " ++ file ++ "\n\n" ++ content
      match c.embed ⟨embeddingModel, contentWithFilePath⟩ with
      | .error _ => none
      | .ok emb => some ⟨file, emb, ⟨file, contentWithFilePath⟩⟩

/-- The entry a file actually lands in the store in real mode (read, embed
and upsert all succeed), if any. -/
def successEntry {E : Type} (c : Collab E) (file : String) : Option (IndexEntry E) :=
  match requestedEntry c file with
  | none => none
  | some e =>
      match c.upsert [e] with
      | .error _ => none
      | .ok _ => some e

/-- The embeddings.create requests one file gives rise to. -/
def embedReqsOf {E : Type} (c : Collab E) (dryrunMode : Bool) (file : String) :
    List EmbedRequest :=
  match c.readFile file with
  | .error _ => []
  | .ok content =>
      if dryrunMode then []
      else [⟨embeddingModel, "File path: " ++ file ++ "\n\n" ++ content⟩]

/-- The upsert requests (batches) one file gives rise to. -/
def upsertReqsOf {E : Type} (c : Collab E) (dryrunMode : Bool) (file : String) :
    List (List (IndexEntry E)) :=
  if dryrunMode then []
  else
    match requestedEntry c file with
    | none => []
    | some e => [[e]]

/-- All embeddings.create requests of a run, in file order. -/
def embedReqsAll {E : Type} (c : Collab E) (dryrunMode : Bool) :
    List String → List EmbedRequest
  | [] => []
  | f :: rest => embedReqsOf c dryrunMode f ++ embedReqsAll c dryrunMode rest

/-- All upsert requests of a run, in file order. -/
def upsertReqsAll {E : Type} (c : Collab E) (dryrunMode : Bool) :
    List String → List (List (IndexEntry E))
  | [] => []
  | f :: rest => upsertReqsOf c dryrunMode f ++ upsertReqsAll c dryrunMode rest

theorem processFile_successfulCount {E : Type} (c : Collab E) (d : Bool)
    (st : RunState E) (f : String) :
    (processFile c d st f).successfulCount
      = st.successfulCount + (if fileSucceeds c d f then 1 else 0) := by
  cases hr : c.readFile f with
  | error e => simp [processFile, fileSucceeds, hr]
  | ok content =>
      cases d with
      | true => simp [processFile, fileSucceeds, hr]
      | false =>
          cases he : c.embed ⟨embeddingModel, "File path: " ++ f ++ "\n\n" ++ content⟩ with
          | error e => simp [processFile, fileSucceeds, hr, he]
          | ok emb =>
              cases hu : c.upsert [⟨f, emb, ⟨f, "File path: " ++ f ++ "\n\n" ++ content⟩⟩] with
              | error e => simp [processFile, fileSucceeds, hr, he, hu]
              | ok u => simp [processFile, fileSucceeds, hr, he, hu]

theorem processFile_embedRequests {E : Type} (c : Collab E) (d : Bool)
    (st : RunState E) (f : String) :
    (processFile c d st f).embedRequests = st.embedRequests ++ embedReqsOf c d f := by
  cases hr : c.readFile f with
  | error e => simp [processFile, embedReqsOf, hr]
  | ok content =>
      cases d with
      | true => simp [processFile, embedReqsOf, hr]
      | false =>
          cases he : c.embed ⟨embeddingModel, "File path: " ++ f ++ "\n\n" ++ content⟩ with
          | error e => simp [processFile, embedReqsOf, hr, he]
          | ok emb =>
              cases hu : c.upsert [⟨f, emb, ⟨f, "File path: " ++ f ++ "\n\n" ++ content⟩⟩] with
              | error e => simp [processFile, embedReqsOf, hr, he, hu]
              | ok u => simp [processFile, embedReqsOf, hr, he, hu]

theorem processFile_upsertRequests {E : Type} (c : Collab E) (d : Bool)
    (st : RunState E) (f : String) :
    (processFile c d st f).upsertRequests = st.upsertRequests ++ upsertReqsOf c d f := by
  cases hr : c.readFile f with
  | error e => simp [processFile, upsertReqsOf, requestedEntry, hr]
  | ok content =>
      cases d with
      | true => simp [processFile, upsertReqsOf, hr]
      | false =>
          cases he : c.embed ⟨embeddingModel, "File path: " ++ f ++ "\n\n" ++ content⟩ with
          | error e => simp [processFile, upsertReqsOf, requestedEntry, hr, he]
          | ok emb =>
              cases hu : c.upsert [⟨f, emb, ⟨f, "File path: " ++ f ++ "\n\n" ++ content⟩⟩] with
              | error e => simp [processFile, upsertReqsOf, requestedEntry, hr, he, hu]
              | ok u => simp [processFile, upsertReqsOf, requestedEntry, hr, he, hu]

theorem processFile_store_dryrun {E : Type} (c : Collab E) (st : RunState E) (f : String) :
    (processFile c true st f).store = st.store := by
  cases hr : c.readFile f with
  | error e => simp [processFile, hr]
  | ok content => simp [processFile, hr]

theorem processFile_store_real {E : Type} (c : Collab E) (st : RunState E) (f : String) :
    (processFile c false st f).store
      = (match successEntry c f with
         | none => st.store
         | some e => storeUpsert st.store e) := by
  cases hr : c.readFile f with
  | error e => simp [processFile, successEntry, requestedEntry, hr]
  | ok content =>
      cases he : c.embed ⟨embeddingModel, "File path: " ++ f ++ "\n\n" ++ content⟩ with
      | error e => simp [processFile, successEntry, requestedEntry, hr, he]
      | ok emb =>
          cases hu : c.upsert [⟨f, emb, ⟨f, "File path: " ++ f ++ "\n\n" ++ content⟩⟩] with
          | error e => simp [processFile, successEntry, requestedEntry, hr, he, hu]
          | ok u => simp [processFile, successEntry, requestedEntry, hr, he, hu]

/-- In dry-run mode a file succeeds exactly when its read succeeds. -/
theorem fileSucceeds_dryrun {E : Type} (c : Collab E) (f : String) :
    fileSucceeds c true f = exceptOk (c.readFile f) := by
  cases hr : c.readFile f with
  | error e => simp [fileSucceeds, exceptOk, hr]
  | ok content => simp [fileSucceeds, exceptOk, hr]

set_option linter.unnecessarySeqFocus false in
theorem foldl_successfulCount {E : Type} (c : Collab E) (d : Bool) :
    ∀ (files : List String) (st : RunState E),
      (files.foldl (processFile c d) st).successfulCount
        = st.successfulCount + List.countP (fileSucceeds c d) files := by
  intro files
  induction files with
  | nil => intro st; simp
  | cons f rest ih =>
      intro st
      rw [List.foldl_cons, ih, processFile_successfulCount, List.countP_cons]
      cases h : fileSucceeds c d f <;> simp [h] <;> omega

theorem foldl_embedRequests {E : Type} (c : Collab E) (d : Bool) :
    ∀ (files : List String) (st : RunState E),
      (files.foldl (processFile c d) st).embedRequests
        = st.embedRequests ++ embedReqsAll c d files := by
  intro files
  induction files with
  | nil => intro st; simp [embedReqsAll]
  | cons f rest ih =>
      intro st
      rw [List.foldl_cons, ih, processFile_embedRequests]
      simp [embedReqsAll]

theorem foldl_upsertRequests {E : Type} (c : Collab E) (d : Bool) :
    ∀ (files : List String) (st : RunState E),
      (files.foldl (processFile c d) st).upsertRequests
        = st.upsertRequests ++ upsertReqsAll c d files := by
  intro files
  induction files with
  | nil => intro st; simp [upsertReqsAll]
  | cons f rest ih =>
      intro st
      rw [List.foldl_cons, ih, processFile_upsertRequests]
      simp [upsertReqsAll]

theorem foldl_store_dryrun {E : Type} (c : Collab E) :
    ∀ (files : List String) (st : RunState E),
      (files.foldl (processFile c true) st).store = st.store := by
  intro files
  induction files with
  | nil => intro st; simp
  | cons f rest ih =>
      intro st
      rw [List.foldl_cons, ih, processFile_store_dryrun]

theorem foldl_store_real {E : Type} (c : Collab E) :
    ∀ (files : List String) (st : RunState E),
      (files.foldl (processFile c false) st).store
        = upsertList st.store (files.filterMap (successEntry c)) := by
  intro files
  induction files with
  | nil => intro st; simp [upsertList]
  | cons f rest ih =>
      intro st
      rw [List.foldl_cons, ih, List.filterMap_cons]
      cases h : successEntry c f with
      | none => rw [processFile_store_real]; simp [h]
      | some e => rw [processFile_store_real]; simp [h, upsertList]

theorem countP_not_add {A : Type} (p : A → Bool) (l : List A) :
    List.countP p l + List.countP (fun a => !p a) l = l.length := by
  induction l with
  | nil => simp
  | cons a l ih =>
      rw [List.countP_cons, List.countP_cons]
      cases h : p a <;> simp [h] <;> omega

set_option linter.unnecessarySeqFocus false in
theorem embedReqsAll_dryrun {E : Type} (c : Collab E) :
    ∀ files : List String, embedReqsAll c true files = [] := by
  intro files
  induction files with
  | nil => rfl
  | cons f rest ih =>
      rw [embedReqsAll, ih]
      cases hr : c.readFile f <;> simp [embedReqsOf, hr]

theorem upsertReqsAll_dryrun {E : Type} (c : Collab E) :
    ∀ files : List String, upsertReqsAll c true files = [] := by
  intro files
  induction files with
  | nil => rfl
  | cons f rest ih => rw [upsertReqsAll, ih]; simp [upsertReqsOf]

/-- C2: the run is total and its summary is exact: the reported total is the
number of files, the successful count is the number of files whose own
processing succeeds (a per-file fact independent of the other files, so one
failing file never stops the rest from being counted on their own merits),
and the successful count is the total minus exactly the number of failing
files. -/
theorem driver_summary_counts {E : Type} (c : Collab E) (files : List String)
    (indexName : String) (d : Bool) (store0 : List (IndexEntry E)) :
    (indexFiles c files indexName d store0).2.total = files.length
    ∧ (indexFiles c files indexName d store0).2.successfulCount
        = List.countP (fileSucceeds c d) files
    ∧ (indexFiles c files indexName d store0).2.successfulCount
        + List.countP (fun f => !fileSucceeds c d f) files = files.length
    ∧ (indexFiles c files indexName d store0).2.successfulCount
        = files.length - List.countP (fun f => !fileSucceeds c d f) files := by
  have hs : (indexFiles c files indexName d store0).2.successfulCount
      = List.countP (fileSucceeds c d) files := by
    show (files.foldl (processFile c d) ⟨0, [], [], store0⟩).successfulCount
        = List.countP (fileSucceeds c d) files
    rw [foldl_successfulCount]
    simp
  have hlen := countP_not_add (fileSucceeds c d) files
  exact ⟨rfl, hs, by omega, by omega⟩

/-- A concrete dry-run scenario collaborator: f1 reads, any other file is
missing; embedding and upsert would succeed if they were ever called. -/
def cScenario : Collab (List Int) :=
  ⟨fun f => if f = "f1" then .ok "hello" else .error "ENOENT",
   fun _ => .ok [], fun _ => .ok ()⟩

/-- C3: a dry run makes no embeddings.create call, makes no upsert call,
leaves the remote store untouched, and counts exactly the files whose read
succeeds; in particular on [f1, f2] with f2 missing it reports 1 of 2 with
zero upsert calls. -/
theorem driver_dryrun_frame {E : Type} (c : Collab E) (files : List String)
    (indexName : String) (store0 : List (IndexEntry E)) :
    (indexFiles c files indexName true store0).1.embedRequests = []
    ∧ (indexFiles c files indexName true store0).1.upsertRequests = []
    ∧ (indexFiles c files indexName true store0).1.store = store0
    ∧ (indexFiles c files indexName true store0).2.successfulCount
        = List.countP (fun f => exceptOk (c.readFile f)) files
    ∧ (indexFiles cScenario ["f1", "f2"] "idx" true []).2.successfulCount = 1
    ∧ (indexFiles cScenario ["f1", "f2"] "idx" true []).2.total = 2
    ∧ (indexFiles cScenario ["f1", "f2"] "idx" true []).1.upsertRequests = [] := by
  refine ⟨?_, ?_, ?_, ?_, by decide, by decide, by decide⟩
  · show (files.foldl (processFile c true) ⟨0, [], [], store0⟩).embedRequests = []
    rw [foldl_embedRequests, embedReqsAll_dryrun]; rfl
  · show (files.foldl (processFile c true) ⟨0, [], [], store0⟩).upsertRequests = []
    rw [foldl_upsertRequests, upsertReqsAll_dryrun]; rfl
  · show (files.foldl (processFile c true) ⟨0, [], [], store0⟩).store = store0
    rw [foldl_store_dryrun]
  · show (files.foldl (processFile c true) ⟨0, [], [], store0⟩).successfulCount
        = List.countP (fun f => exceptOk (c.readFile f)) files
    rw [foldl_successfulCount]
    have : fileSucceeds c true = fun f => exceptOk (c.readFile f) :=
      funext (fileSucceeds_dryrun c)
    rw [this]
    simp

/-- C7: for a file whose read succeeds in real mode, the embeddings.create
request carries exactly the text "File path: FILE\n\n" ++ content, and when
the embedding comes back the single upserted entry has the file path as id,
the returned embedding as values, and metadata duplicating path and that
exact prefixed text. -/
theorem driver_embeds_prefixed_text {E : Type} (c : Collab E) (st : RunState E)
    (file content : String) (h : c.readFile file = .ok content) :
    (processFile c false st file).embedRequests
      = st.embedRequests
          ++ [⟨embeddingModel, "File path: " ++ file ++ "\n\n" ++ content⟩]
    ∧ (∀ emb : E,
        c.embed ⟨embeddingModel, "File path: " ++ file ++ "\n\n" ++ content⟩ = .ok emb →
        (processFile c false st file).upsertRequests
          = st.upsertRequests
              ++ [[⟨file, emb, ⟨file, "File path: " ++ file ++ "\n\n" ++ content⟩⟩]]) := by
  constructor
  · rw [processFile_embedRequests]
    simp [embedReqsOf, h]
  · intro emb he
    rw [processFile_upsertRequests]
    simp [upsertReqsOf, requestedEntry, h, he]

/-- A concrete all-succeeding collaborator for the C7 witness. -/
def cHappy : Collab (List Int) :=
  ⟨fun _ => .ok "body", fun _ => .ok [7], fun _ => .ok ()⟩

/-- Witness for C7 at a concrete readable file. -/
theorem driver_embeds_prefixed_text_witness :
    (processFile cHappy false ⟨0, [], [], []⟩ "f").embedRequests
      = [⟨embeddingModel, "File path: " ++ "f" ++ "\n\n" ++ "body"⟩]
    ∧ (processFile cHappy false ⟨0, [], [], []⟩ "f").upsertRequests
      = [[⟨"f", [7], ⟨"f", "File path: " ++ "f" ++ "\n\n" ++ "body"⟩⟩]] :=
  ⟨(driver_embeds_prefixed_text cHappy ⟨0, [], [], []⟩ "f" "body" rfl).1,
   (driver_embeds_prefixed_text cHappy ⟨0, [], [], []⟩ "f" "body" rfl).2 [7] rfl⟩

/-- The ids held by a store, in order. -/
def storeIds {E : Type} (s : List (IndexEntry E)) : List String :=
  s.map (fun e => e.id)

/-- The first entry of a store with a given id. -/
def lookupId {E : Type} (s : List (IndexEntry E)) (k : String) : Option (IndexEntry E) :=
  s.find? (fun e => e.id == k)

theorem storeIds_storeUpsert {E : Type} (s : List (IndexEntry E)) (e : IndexEntry E) :
    storeIds (storeUpsert s e)
      = if e.id ∈ storeIds s then storeIds s else storeIds s ++ [e.id] := by
  by_cases h : e.id ∈ storeIds s
  · have hany : s.any (fun x => x.id == e.id) = true := by
      rw [List.any_eq_true]
      obtain ⟨x, hx, hid⟩ := List.mem_map.mp h
      exact ⟨x, hx, by simp [hid]⟩
    rw [storeUpsert, if_pos hany, if_pos h]
    unfold storeIds
    rw [List.map_map]
    apply List.map_congr_left
    intro x _
    by_cases hxe : x.id = e.id
    · simp [Function.comp, hxe]
    · simp [Function.comp, hxe]
  · have hany : s.any (fun x => x.id == e.id) = false := by
      rw [List.any_eq_false]
      intro x hx
      simp only [beq_iff_eq]
      intro hcon
      exact h (List.mem_map.mpr ⟨x, hx, hcon⟩)
    rw [storeUpsert, if_neg (by simp [hany]), if_neg h]
    unfold storeIds
    rw [List.map_append]
    rfl

theorem mem_storeIds_storeUpsert_self {E : Type} (s : List (IndexEntry E))
    (e : IndexEntry E) : e.id ∈ storeIds (storeUpsert s e) := by
  rw [storeIds_storeUpsert]
  by_cases h : e.id ∈ storeIds s
  · rw [if_pos h]; exact h
  · rw [if_neg h]; simp

theorem mem_storeIds_storeUpsert_mono {E : Type} (s : List (IndexEntry E))
    (e : IndexEntry E) (k : String) (h : k ∈ storeIds s) :
    k ∈ storeIds (storeUpsert s e) := by
  rw [storeIds_storeUpsert]
  by_cases hm : e.id ∈ storeIds s
  · rw [if_pos hm]; exact h
  · rw [if_neg hm]; exact List.mem_append_left _ h

theorem nodup_storeIds_storeUpsert {E : Type} (s : List (IndexEntry E))
    (e : IndexEntry E) (h : (storeIds s).Nodup) :
    (storeIds (storeUpsert s e)).Nodup := by
  rw [storeIds_storeUpsert]
  by_cases hm : e.id ∈ storeIds s
  · rw [if_pos hm]; exact h
  · rw [if_neg hm]
    simp [List.nodup_append, h, hm]

theorem find?_map_replace_eq {E : Type} (e : IndexEntry E) :
    ∀ s : List (IndexEntry E), (∃ x ∈ s, x.id = e.id) →
      (s.map (fun x => if x.id == e.id then e else x)).find? (fun x => x.id == e.id)
        = some e := by
  intro s
  induction s with
  | nil => rintro ⟨x, hx, -⟩; exact absurd hx (List.not_mem_nil x)
  | cons y s ih =>
      rintro ⟨x, hx, hxe⟩
      by_cases hy : y.id = e.id
      · rw [List.map_cons, if_pos (by simp [hy]), List.find?_cons_of_pos _ (by simp)]
      · rw [List.map_cons, if_neg (by simp [hy]), List.find?_cons_of_neg _ (by simp [hy])]
        rcases List.mem_cons.mp hx with h1 | h1
        · exact absurd (h1 ▸ hxe) hy
        · exact ih ⟨x, h1, hxe⟩

theorem find?_map_replace_ne {E : Type} (e : IndexEntry E) (k : String)
    (hk : ¬e.id = k) :
    ∀ s : List (IndexEntry E),
      (s.map (fun x => if x.id == e.id then e else x)).find? (fun x => x.id == k)
        = s.find? (fun x => x.id == k) := by
  intro s
  induction s with
  | nil => simp
  | cons y s ih =>
      by_cases hy : y.id = e.id
      · rw [List.map_cons, if_pos (by simp [hy]),
          List.find?_cons_of_neg _ (by simp [hk]),
          List.find?_cons_of_neg _ (by simp [hy, hk])]
        exact ih
      · rw [List.map_cons, if_neg (by simp [hy])]
        by_cases hyk : y.id = k
        · rw [List.find?_cons_of_pos _ (by simp [hyk]),
            List.find?_cons_of_pos _ (by simp [hyk])]
        · rw [List.find?_cons_of_neg _ (by simp [hyk]),
            List.find?_cons_of_neg _ (by simp [hyk])]
          exact ih

theorem lookupId_storeUpsert {E : Type} (s : List (IndexEntry E)) (e : IndexEntry E)
    (k : String) :
    lookupId (storeUpsert s e) k = if e.id = k then some e else lookupId s k := by
  by_cases hany : s.any (fun x => x.id == e.id) = true
  · rw [storeUpsert, if_pos hany]
    obtain ⟨x0, hx0, hx0e⟩ := List.any_eq_true.mp hany
    rw [beq_iff_eq] at hx0e
    by_cases hk : e.id = k
    · rw [if_pos hk]
      unfold lookupId
      rw [← hk]
      exact find?_map_replace_eq e s ⟨x0, hx0, hx0e⟩
    · rw [if_neg hk]
      unfold lookupId
      exact find?_map_replace_ne e k hk s
  · rw [storeUpsert, if_neg hany]
    have hnone : ∀ x ∈ s, ¬(x.id = e.id) := by
      intro x hx hcon
      exact hany (List.any_eq_true.mpr ⟨x, hx, by simp [hcon]⟩)
    unfold lookupId
    rw [List.find?_append]
    by_cases hk : e.id = k
    · rw [if_pos hk]
      have : s.find? (fun x => x.id == k) = none := by
        rw [List.find?_eq_none]
        intro x hx
        simp only [beq_iff_eq]
        exact hk ▸ hnone x hx
      rw [this]
      simp [hk]
    · rw [if_neg hk]
      cases hf : s.find? (fun x => x.id == k) with
      | some x => simp
      | none => simp [hk]

theorem mem_storeIds_upsertList_mono {E : Type} :
    ∀ (es : List (IndexEntry E)) (s : List (IndexEntry E)) (k : String),
      k ∈ storeIds s → k ∈ storeIds (upsertList s es) := by
  intro es
  induction es with
  | nil => intro s k h; exact h
  | cons f es ih =>
      intro s k h
      exact ih (storeUpsert s f) k (mem_storeIds_storeUpsert_mono s f k h)

theorem mem_storeIds_upsertList {E : Type} :
    ∀ (es : List (IndexEntry E)) (e : IndexEntry E), e ∈ es →
      ∀ s : List (IndexEntry E), e.id ∈ storeIds (upsertList s es) := by
  intro es
  induction es with
  | nil => intro e he; exact absurd he (List.not_mem_nil e)
  | cons f es ih =>
      intro e he s
      rcases List.mem_cons.mp he with h1 | h1
      · subst h1
        exact mem_storeIds_upsertList_mono es (storeUpsert s e) e.id
          (mem_storeIds_storeUpsert_self s e)
      · exact ih e h1 (storeUpsert s f)

theorem storeIds_upsertList_of_all_mem {E : Type} :
    ∀ (es : List (IndexEntry E)) (s : List (IndexEntry E)),
      (∀ e ∈ es, e.id ∈ storeIds s) → storeIds (upsertList s es) = storeIds s := by
  intro es
  induction es with
  | nil => intro s _; rfl
  | cons f es ih =>
      intro s h
      have hf : f.id ∈ storeIds s := h f (List.mem_cons_self f es)
      have hstep : storeIds (storeUpsert s f) = storeIds s := by
        rw [storeIds_storeUpsert, if_pos hf]
      have : storeIds (upsertList (storeUpsert s f) es) = storeIds (storeUpsert s f) := by
        apply ih
        intro e he
        rw [hstep]
        exact h e (List.mem_cons_of_mem f he)
      calc storeIds (upsertList s (f :: es))
          = storeIds (upsertList (storeUpsert s f) es) := rfl
        _ = storeIds (storeUpsert s f) := this
        _ = storeIds s := hstep

theorem nodup_storeIds_upsertList {E : Type} :
    ∀ (es : List (IndexEntry E)) (s : List (IndexEntry E)),
      (storeIds s).Nodup → (storeIds (upsertList s es)).Nodup := by
  intro es
  induction es with
  | nil => intro s h; exact h
  | cons f es ih =>
      intro s h
      exact ih (storeUpsert s f) (nodup_storeIds_storeUpsert s f h)

theorem lookupId_upsertList {E : Type} :
    ∀ (es : List (IndexEntry E)) (s : List (IndexEntry E)) (k : String),
      lookupId (upsertList s es) k
        = (match es.reverse.find? (fun e => e.id == k) with
           | some e => some e
           | none => lookupId s k) := by
  intro es
  induction es with
  | nil => intro s k; rfl
  | cons f es ih =>
      intro s k
      have hstep : lookupId (upsertList s (f :: es)) k
          = lookupId (upsertList (storeUpsert s f) es) k := rfl
      rw [hstep, ih (storeUpsert s f) k]
      rw [show (f :: es).reverse = es.reverse ++ [f] by simp]
      rw [List.find?_append]
      cases hf : es.reverse.find? (fun e => e.id == k) with
      | some e => simp
      | none =>
          simp only [Option.orElse_none, Option.none_orElse]
          rw [lookupId_storeUpsert]
          by_cases hk : f.id = k
          · rw [if_pos hk]
            rw [List.find?_cons_of_pos _ (by simp [hk])]
            simp
          · rw [if_neg hk]
            rw [List.find?_cons_of_neg _ (by simp [hk])]
            simp

theorem store_ext {E : Type} :
    ∀ (s t : List (IndexEntry E)),
      (storeIds s).Nodup → storeIds s = storeIds t →
      (∀ k, lookupId s k = lookupId t k) → s = t := by
  intro s
  induction s with
  | nil =>
      intro t _ hids _
      cases t with
      | nil => rfl
      | cons y t => exact absurd hids.symm (by simp [storeIds])
  | cons x s ih =>
      intro t hnd hids hlook
      cases t with
      | nil => exact absurd hids (by simp [storeIds])
      | cons y t =>
          have hids' := hids
          simp only [storeIds, List.map_cons, List.cons.injEq] at hids'
          obtain ⟨hxy, htl⟩ := hids'
          have hx : lookupId (x :: s) x.id = some x := by
            unfold lookupId
            rw [List.find?_cons_of_pos _ (by simp)]
          have hy : lookupId (y :: t) x.id = some y := by
            unfold lookupId
            rw [List.find?_cons_of_pos _ (by simp [hxy])]
          have hxy2 : x = y := by
            have := hlook x.id
            rw [hx, hy] at this
            exact Option.some.inj this
          have hnd_tail : (storeIds s).Nodup := by
            simp only [storeIds, List.map_cons, List.nodup_cons] at hnd
            exact hnd.2
          have hx_not : x.id ∉ storeIds s := by
            simp only [storeIds, List.map_cons, List.nodup_cons] at hnd
            exact hnd.1
          have hlook_tail : ∀ k, lookupId s k = lookupId t k := by
            intro k
            by_cases hkx : x.id = k
            · have hs_none : lookupId s k = none := by
                unfold lookupId
                rw [List.find?_eq_none]
                intro a ha
                simp only [beq_iff_eq]
                intro hcon
                exact hx_not (hkx ▸ hcon ▸ List.mem_map.mpr ⟨a, ha, rfl⟩)
              have ht_none : lookupId t k = none := by
                unfold lookupId
                rw [List.find?_eq_none]
                intro a ha
                simp only [beq_iff_eq]
                intro hcon
                have hkt : k ∈ List.map (fun e => e.id) t :=
                  hcon ▸ List.mem_map.mpr ⟨a, ha, rfl⟩
                rw [← htl] at hkt
                exact hx_not (hkx ▸ hkt)
              rw [hs_none, ht_none]
            · have := hlook k
              unfold lookupId at this ⊢
              rw [List.find?_cons_of_neg _ (by simp [hkx]),
                List.find?_cons_of_neg _ (by simp [hxy ▸ hkx])] at this
              exact this
          rw [hxy2, ih t hnd_tail htl hlook_tail]

/-- Re-upserting the same batch of entries into the store they produced
changes nothing: upsert is replace-on-conflict, so the second pass rewrites
every entry with the value it already has. -/
theorem upsertList_idem {E : Type} (s : List (IndexEntry E))
    (es : List (IndexEntry E)) (hnd : (storeIds s).Nodup) :
    upsertList (upsertList s es) es = upsertList s es := by
  have hmem : ∀ e ∈ es, e.id ∈ storeIds (upsertList s es) :=
    fun e he => mem_storeIds_upsertList es e he s
  have hids : storeIds (upsertList (upsertList s es) es) = storeIds (upsertList s es) :=
    storeIds_upsertList_of_all_mem es (upsertList s es) hmem
  have hnd1 : (storeIds (upsertList s es)).Nodup := nodup_storeIds_upsertList es s hnd
  have hnd2 : (storeIds (upsertList (upsertList s es) es)).Nodup :=
    nodup_storeIds_upsertList es (upsertList s es) hnd1
  apply store_ext _ _ hnd2 hids
  intro k
  rw [lookupId_upsertList es (upsertList s es) k]
  cases hf : es.reverse.find? (fun e => e.id == k) with
  | some e =>
      rw [lookupId_upsertList es s k, hf]
  | none => rfl

theorem countP_eq_one_of_nodup_mem {E : Type} :
    ∀ (s : List (IndexEntry E)) (k : String),
      (storeIds s).Nodup → k ∈ storeIds s →
      List.countP (fun x => x.id == k) s = 1 := by
  intro s
  induction s with
  | nil => intro k _ h; exact absurd h (List.not_mem_nil k)
  | cons x s ih =>
      intro k hnd hm
      simp only [storeIds, List.map_cons, List.nodup_cons] at hnd
      rw [List.countP_cons]
      rcases List.mem_cons.mp hm with h1 | h1
      · have hzero : List.countP (fun e => e.id == k) s = 0 := by
          rw [List.countP_eq_zero]
          intro a ha
          simp only [beq_iff_eq]
          intro hcon
          exact hnd.1 (List.mem_map.mpr ⟨a, ha, hcon.trans h1⟩)
        rw [hzero]
        simp [h1]
      · have hx : ¬(x.id = k) := by
          intro hcon
          exact hnd.1 (hcon ▸ h1)
        rw [ih k hnd.2 h1]
        simp [hx]

/-- C9: re-running the driver in real mode over the same files against the
store the first run produced issues the same upsert requests (same
embeddings, same metadata: the collaborators are functions, hence
deterministic, and nothing the driver sends depends on the store), leaves
the store exactly as the first run left it, and the store holds no duplicate
ids — exactly one entry per successfully ingested file path. -/
theorem driver_rerun_idempotent {E : Type} (c : Collab E) (files : List String)
    (indexName : String) :
    ((indexFiles c files indexName false
        ((indexFiles c files indexName false []).1.store)).1.upsertRequests
      = (indexFiles c files indexName false []).1.upsertRequests)
    ∧ ((indexFiles c files indexName false
        ((indexFiles c files indexName false []).1.store)).1.store
      = (indexFiles c files indexName false []).1.store)
    ∧ (storeIds (indexFiles c files indexName false []).1.store).Nodup
    ∧ (∀ e : IndexEntry E, e ∈ files.filterMap (successEntry c) →
        List.countP (fun x => x.id == e.id)
          (indexFiles c files indexName false []).1.store = 1) := by
  have hreq : ∀ store0 : List (IndexEntry E),
      (indexFiles c files indexName false store0).1.upsertRequests
        = upsertReqsAll c false files := by
    intro store0
    show (files.foldl (processFile c false) ⟨0, [], [], store0⟩).upsertRequests = _
    rw [foldl_upsertRequests]
    simp
  have hstore : ∀ store0 : List (IndexEntry E),
      (indexFiles c files indexName false store0).1.store
        = upsertList store0 (files.filterMap (successEntry c)) := by
    intro store0
    show (files.foldl (processFile c false) ⟨0, [], [], store0⟩).store = _
    rw [foldl_store_real]
  have hnd0 : (storeIds ([] : List (IndexEntry E))).Nodup := by simp [storeIds]
  refine ⟨?_, ?_, ?_, ?_⟩
  · rw [hreq, hreq]
  · rw [hstore, hstore, upsertList_idem _ _ hnd0]
  · rw [hstore]
    exact nodup_storeIds_upsertList _ _ hnd0
  · intro e he
    rw [hstore]
    apply countP_eq_one_of_nodup_mem
    · exact nodup_storeIds_upsertList _ _ hnd0
    · exact mem_storeIds_upsertList _ e he []

/-- A concrete all-succeeding collaborator for the C9 witness. -/
def cIdem : Collab (List Int) :=
  ⟨fun _ => .ok "data", fun _ => .ok [3], fun _ => .ok ()⟩

/-- Witness for C9: the single successfully ingested file has exactly one
entry in the final store. -/
theorem driver_rerun_idempotent_witness :
    List.countP
        (fun x => x.id ==
          (⟨"f", [3], ⟨"f", "File path: " ++ "f" ++ "\n\n" ++ "data"⟩⟩
            : IndexEntry (List Int)).id)
        (indexFiles cIdem ["f"] "idx" false []).1.store = 1 :=
  (driver_rerun_idempotent cIdem ["f"] "idx").2.2.2
    ⟨"f", [3], ⟨"f", "File path: " ++ "f" ++ "\n\n" ++ "data"⟩⟩ (by decide)

end Nyorai
